import Mathlib

/-!
Verification of the Unicode table-generation pipeline in scripts/unicode.py:
interval compression (group_cat), the combined break-table builds, the coarse
lookup index, and the emitted binary-search classifiers (bsearch_range_table,
bsearch_range_value_table and the per-module category functions).

Machine integers in the emitted code are u32 values far below overflow
(code points are at most 0x10FFFF), so they are modelled as Nat.
-/

set_option maxRecDepth 4000

/-- A row of a combined break table: a (low, high, category) triple. -/
structure RangeEntry (C : Type) where
  lo : Nat
  hi : Nat
  cat : C
deriving DecidableEq

/-- Result of the slice binary_search_by call: Ok with an in-bounds index,
or Err with the insertion point, which is at most the length. -/
inductive SearchResult (n : Nat) where
  | found : Fin n → SearchResult n
  | notFound : (i : Nat) → i ≤ n → SearchResult n

/-- The core loop of binary_search_by over a slice: left/right window,
probe at left + (right - left) / 2.  The fuel argument makes the loop
structurally recursive; the bound right - left ≤ fuel guarantees the fuel
never cuts the loop short, so fuel 0 is exactly the loop exit. -/
def bsearchGo (f : α → Ordering) (l : List α) :
    (fuel left right : Nat) → left ≤ right → right ≤ l.length →
    right - left ≤ fuel → SearchResult l.length
  | 0, left, right, hlr, hr, _ => .notFound left (by omega)
  | fuel + 1, left, right, _, hr, _ =>
    if h : left < right then
      match f (l.get ⟨left + (right - left) / 2, by omega⟩) with
      | .lt => bsearchGo f l fuel (left + (right - left) / 2 + 1) right (by omega) hr (by omega)
      | .gt => bsearchGo f l fuel left (left + (right - left) / 2) (by omega) (by omega) (by omega)
      | .eq => .found ⟨left + (right - left) / 2, by omega⟩
    else .notFound left (by omega)

/-- binary_search_by from the Rust standard library, as used by the
emitted searches. -/
def binary_search_by (f : α → Ordering) (l : List α) : SearchResult l.length :=
  bsearchGo f l l.length 0 l.length (Nat.zero_le _) (Nat.le_refl _) (by omega)

/-- The comparator closure shared by both emitted searches: Equal when the
entry contains c, Less when the entry is entirely below c, else Greater. -/
def cmpOf (flo fhi : α → Nat) (c : Nat) (e : α) : Ordering :=
  if flo e ≤ c ∧ c ≤ fhi e then .eq else if fhi e < c then .lt else .gt

/-- util::bsearch_range_table from the emitted module: boolean membership
by binary search over a list of (low, high) pairs. -/
def bsearch_range_table (c : Nat) (r : List (Nat × Nat)) : Bool :=
  match binary_search_by (cmpOf Prod.fst Prod.snd c) r with
  | .found _ => true
  | .notFound _ _ => false

/-- bsearch_range_value_table from each emitted break module.  On a hit it
returns the entry; on a miss at insertion point i it synthesizes the bounds
from the neighbours in the searched slice, falling back to the given
defaults, with category anyV (the Any member of the emitted enum). -/
def bsearch_range_value_table (c : Nat) (r : List (RangeEntry C))
    (default_lower default_upper : Nat) (anyV : C) : Nat × Nat × C :=
  match binary_search_by (cmpOf RangeEntry.lo RangeEntry.hi c) r with
  | .found idx => ((r.get idx).lo, (r.get idx).hi, (r.get idx).cat)
  | .notFound i hle =>
    (if h : 0 < i then (r.get ⟨i - 1, by omega⟩).hi + 1 else default_lower,
     match r.get? i with
     | some e => e.lo - 1
     | none => default_upper,
     anyV)

/-- The inner while loop of the coarse-index build: starting at position j
(whose suffix of the table is passed alongside), advance while the current
entry has high bound below the bucket low bound t. -/
def advanceLoop (t : Nat) : Nat → List (RangeEntry C) → Nat
  | j, [] => j
  | j, e :: es => if t ≤ e.hi then j else advanceLoop t (j + 1) es

/-- The outer for loop of the coarse-index build: bucket index i, count
remaining buckets, and the monotone pointer j shared across buckets. -/
def buildLookupAux (tbl : List (RangeEntry C)) (stride : Nat) :
    Nat → Nat → Nat → List Nat
  | _, 0, _ => []
  | i, count + 1, j =>
    let v := advanceLoop (i * stride) j (tbl.drop j)
    v :: buildLookupAux tbl stride (i + 1) count v

/-- The coarse lookup table built in emit_break_module. -/
def lookup_table (tbl : List (RangeEntry C)) (len stride : Nat) : List Nat :=
  buildLookupAux tbl stride 0 len 0

/-- A contiguous slice of a table, table[a..b].  The emitted code indexes
with a range, which panics unless a ≤ b ≤ length; that guard lives in
the category function below. -/
def tableSlice (l : List α) (a b : Nat) : List α := (l.take b).drop a

/-- The window-selection step of the emitted category function:
lookup.get(idx..idx + 2) yields a two-element subslice exactly when
idx + 2 ≤ n, where n is the static length of the emitted lookup array;
then the window is lookup[idx]..lookup[idx + 1] + 1, else the fallback fb
(final build pointer to table length). -/
def winBounds (n : Nat) (lookup : List Nat) (fb : Nat × Nat) (idx : Nat) : Nat × Nat :=
  if idx + 2 ≤ n then (lookup.getD idx 0, lookup.getD (idx + 1) 0 + 1) else fb

/-- The emitted category query, generically in the build parameters.
The result is none exactly when slicing the table with the selected window
would panic; the main theorems show this cannot happen for tables
satisfying the build invariants. -/
def category (n : Nat) (lookup : List Nat) (tbl : List (RangeEntry C)) (stride : Nat)
    (fb : Nat × Nat) (anyV : C) (c : Nat) : Option (Nat × Nat × C) :=
  let idx := c / stride
  let w := winBounds n lookup fb idx
  if w.1 ≤ w.2 ∧ w.2 ≤ tbl.length then
    some (bsearch_range_value_table c (tableSlice tbl w.1 w.2)
      (idx * stride) (idx * stride + stride - 1) anyV)
  else none

/-- The window selected by the emitted category function at the emitted
constants: lookup_value_cutoff 0x20000, lookup_table_len 0x400, hence
lookup_interval 0x80; the fallback is the final build pointer (the last
lookup entry) to the table length. -/
def break_window (tbl : List (RangeEntry C)) (c : Nat) : Nat × Nat :=
  winBounds 0x400 (lookup_table tbl 0x400 0x80)
    ((lookup_table tbl 0x400 0x80).getLastD 0, tbl.length) (c / 0x80)

/-- The emitted category query at the emitted constants. -/
def break_category (tbl : List (RangeEntry C)) (anyV : C) (c : Nat) :
    Option (Nat × Nat × C) :=
  category 0x400 (lookup_table tbl 0x400 0x80) tbl 0x80
    ((lookup_table tbl 0x400 0x80).getLastD 0, tbl.length) anyV c

/-- Reference query for the refinement claim, following the specification:
a plain binary search over the whole range table with the same pessimistic
defaults and no coarse index. -/
def category_unindexed (tbl : List (RangeEntry C)) (stride : Nat) (anyV : C)
    (c : Nat) : Nat × Nat × C :=
  bsearch_range_value_table c tbl (c / stride * stride)
    (c / stride * stride + stride - 1) anyV

/-- Insertion into a strictly ascending list, dropping duplicates. -/
def insertSorted (x : Nat) : List Nat → List Nat
  | [] => [x]
  | y :: ys =>
    if x < y then x :: y :: ys
    else if x = y then y :: ys
    else y :: insertSorted x ys

/-- sorted(set(l)): the strictly ascending enumeration of the members. -/
def sortedDedup (l : List Nat) : List Nat := l.foldr insertSorted []

/-- The scan inside group_cat, carrying the running (cur_start, cur_end)
pair: extend the run on a successor, flush the closed interval on a gap. -/
def groupRun (start curEnd : Nat) : List Nat → List (Nat × Nat)
  | [] => [(start, curEnd)]
  | letter :: ls =>
    if letter = curEnd + 1 then groupRun start letter ls
    else (start, curEnd) :: groupRun letter letter ls

/-- group_cat: compress a set of code points (given as a list) into maximal
closed intervals.  The Python pop(0) faults on an empty input; we return
the empty list there. -/
def group_cat (cat : List Nat) : List (Nat × Nat) :=
  match sortedDedup cat with
  | [] => []
  | x :: xs => groupRun x x xs

/-- ungroup_cat: expand closed intervals back into the member list. -/
def ungroup_cat (cat : List (Nat × Nat)) : List Nat :=
  cat.flatMap fun p => List.range' p.1 (p.2 + 1 - p.1)

/-- The per-property normalization at the end of load_properties:
group_cat(ungroup_cat(ranges)). -/
def props_optimize (ranges : List (Nat × Nat)) : List (Nat × Nat) :=
  group_cat (ungroup_cat ranges)

/-- is_surrogate, with surrogate_codepoints = (0xd800, 0xdfff). -/
def is_surrogate (n : Nat) : Bool := 0xD800 ≤ n && n ≤ 0xDFFF

/-- The grapheme Control fix-up in main: recompress the category after
removing the surrogate code points from its member set. -/
def control_fix (ranges : List (Nat × Nat)) : List (Nat × Nat) :=
  group_cat ((ungroup_cat ranges).filter fun n => !is_surrogate n)

/-- The set of code points covered by a list of closed intervals. -/
def covers (l : List (Nat × Nat)) : Finset Nat :=
  l.foldr (fun p acc => Finset.Icc p.1 p.2 ∪ acc) ∅

/-- Stable insertion by low bound, modelling list.sort(key) on the
flattened break table. -/
def insertByLo (e : RangeEntry String) :
    List (RangeEntry String) → List (RangeEntry String)
  | [] => [e]
  | f :: fs => if e.lo ≤ f.lo then e :: f :: fs else f :: insertByLo e fs

/-- Stable sort by low bound. -/
def sortByLo (l : List (RangeEntry String)) : List (RangeEntry String) :=
  l.foldr insertByLo []

/-- Flatten the per-category interval lists into (low, high, category)
rows and sort them by low bound, as in main. -/
def build_break_table (cats : List (String × List (Nat × Nat))) :
    List (RangeEntry String) :=
  sortByLo (cats.flatMap fun pc => pc.2.map fun p => ⟨p.1, p.2, pc.1⟩)

/-- The overlap scan run on the grapheme table in main: last starts
at -1 and each row must have low strictly above the previous high. -/
def overlap_check : Int → List (RangeEntry String) → Bool
  | _, [] => true
  | last, e :: es => if (e.lo : Int) ≤ last then false else overlap_check (e.hi : Int) es

/-- The grapheme combined-table build: flatten, sort, and abort (none)
when the overlap scan trips. -/
def grapheme_build (cats : List (String × List (Nat × Nat))) :
    Option (List (RangeEntry String)) :=
  let t := build_break_table cats
  if overlap_check (-1) t then some t else none

/-- The word combined-table build in main: flatten and sort only; no
overlap scan is run (sentence and emoji are built the same way). -/
def word_build (cats : List (String × List (Nat × Nat))) :
    List (RangeEntry String) :=
  build_break_table cats

/-- Semantics of the emitted is_incb_linker match arms: for each interval
the generator writes an alternative matching exactly lo and, when lo and
hi differ, extends it to a half-open range pattern whose lower and upper
endpoints are both lo (the generator prints lo where hi was intended). -/
def is_incb_linker_model (ranges : List (Nat × Nat)) (c : Nat) : Bool :=
  ranges.any fun p => c == p.1 || (p.1 != p.2 && decide (p.1 ≤ c ∧ c < p.1))

/-- The sorted-disjoint table invariant, over projections for the low and
high bounds: every row is a well-formed interval and each row ends
strictly before the next begins. -/
def SDisj (flo fhi : α → Nat) (l : List α) : Prop :=
  (∀ e ∈ l, flo e ≤ fhi e) ∧ List.Chain' (fun a b => fhi a < flo b) l

/-- A comparator that answers Less only below and Greater only above,
consistently along the list. -/
def Mono (f : α → Ordering) (l : List α) : Prop :=
  ∀ i j : Fin l.length, (i : Nat) < (j : Nat) →
    (f (l.get j) = .lt → f (l.get i) = .lt) ∧
    (f (l.get i) = .gt → f (l.get j) = .gt)

/-- v is the index of the first table entry whose high bound is at least t
(v equals the length when there is none). -/
def IsFirstGe (tbl : List (RangeEntry C)) (t v : Nat) : Prop :=
  v ≤ tbl.length ∧
  (∀ j : Fin tbl.length, (j : Nat) < v → (tbl.get j).hi < t) ∧
  (∀ h : v < tbl.length, t ≤ (tbl.get ⟨v, h⟩).hi)

/-! ## Generic facts about the binary search loop -/

theorem bsearchGo_spec (f : α → Ordering) (l : List α) (hm : Mono f l) :
    ∀ (fuel left right : Nat) (hlr : left ≤ right) (hr : right ≤ l.length)
      (hf : right - left ≤ fuel),
      (∀ k : Fin l.length, (k : Nat) < left → f (l.get k) = .lt) →
      (∀ k : Fin l.length, right ≤ (k : Nat) → f (l.get k) = .gt) →
      match bsearchGo f l fuel left right hlr hr hf with
      | .found m => f (l.get m) = .eq
      | .notFound i _ =>
        (∀ k : Fin l.length, (k : Nat) < i → f (l.get k) = .lt) ∧
        (∀ k : Fin l.length, i ≤ (k : Nat) → f (l.get k) = .gt) := by
  intro fuel
  induction fuel with
  | zero =>
    intro left right hlr hr hf hL hR
    simp only [bsearchGo]
    exact ⟨fun k hk => hL k hk, fun k hk => hR k (by omega)⟩
  | succ fuel ih =>
    intro left right hlr hr hf hL hR
    simp only [bsearchGo]
    by_cases h : left < right
    · rw [dif_pos h]
      cases hcmp : f (l.get ⟨left + (right - left) / 2, by omega⟩) with
      | lt =>
        refine ih _ _ _ _ _ ?_ hR
        intro k hk
        rcases Nat.lt_or_ge (k : Nat) (left + (right - left) / 2) with hk2 | hk2
        · exact (hm k ⟨left + (right - left) / 2, by omega⟩ hk2).1 hcmp
        · have hkeq : k = (⟨left + (right - left) / 2, by omega⟩ : Fin l.length) :=
            Fin.ext (show (k : Nat) = left + (right - left) / 2 by omega)
          rw [hkeq]; exact hcmp
      | gt =>
        refine ih _ _ _ _ _ hL ?_
        intro k hk
        rcases Nat.lt_or_ge (left + (right - left) / 2) (k : Nat) with hk2 | hk2
        · exact (hm ⟨left + (right - left) / 2, by omega⟩ k hk2).2 hcmp
        · have hkeq : k = (⟨left + (right - left) / 2, by omega⟩ : Fin l.length) :=
            Fin.ext (show (k : Nat) = left + (right - left) / 2 by omega)
          rw [hkeq]; exact hcmp
      | eq => exact hcmp
    · rw [dif_neg h]
      exact ⟨fun k hk => hL k hk, fun k hk => hR k (by omega)⟩

theorem binary_search_spec (f : α → Ordering) (l : List α) (hm : Mono f l) :
    match binary_search_by f l with
    | .found m => f (l.get m) = .eq
    | .notFound i _ =>
      (∀ k : Fin l.length, (k : Nat) < i → f (l.get k) = .lt) ∧
      (∀ k : Fin l.length, i ≤ (k : Nat) → f (l.get k) = .gt) :=
  bsearchGo_spec f l hm l.length 0 l.length (Nat.zero_le _) (Nat.le_refl _) (by omega)
    (fun k hk => absurd hk (by omega)) (fun k hk => absurd k.isLt (by omega))

/-! ## The range comparator -/

theorem cmpOf_eq_eq_iff (flo fhi : α → Nat) (c : Nat) (e : α) :
    cmpOf flo fhi c e = .eq ↔ (flo e ≤ c ∧ c ≤ fhi e) := by
  unfold cmpOf
  split_ifs with h1 h2 <;> simp <;> omega

theorem cmpOf_eq_lt_iff (flo fhi : α → Nat) (c : Nat) (e : α) :
    cmpOf flo fhi c e = .lt ↔ fhi e < c := by
  unfold cmpOf
  split_ifs with h1 h2 <;> simp <;> omega

theorem cmpOf_eq_gt_iff (flo fhi : α → Nat) (c : Nat) (e : α) (hlh : flo e ≤ fhi e) :
    cmpOf flo fhi c e = .gt ↔ c < flo e := by
  unfold cmpOf
  split_ifs with h1 h2 <;> simp <;> omega

/-! ## Sorted-disjoint tables -/

theorem fin_get_mem (l : List α) (j : Fin l.length) : l.get j ∈ l :=
  List.get_mem l j.1 j.2

theorem SDisj.pairwise_lt {flo fhi : α → Nat} {l : List α} (h : SDisj flo fhi l) :
    ∀ i j : Fin l.length, (i : Nat) < (j : Nat) → fhi (l.get i) < flo (l.get j) := by
  obtain ⟨hb, hc⟩ := h
  rw [List.chain'_iff_get] at hc
  have adj : ∀ (m : Nat) (h1 : m < l.length) (h2 : m + 1 < l.length),
      fhi (l.get ⟨m, h1⟩) < flo (l.get ⟨m + 1, h2⟩) := fun m h1 h2 => hc m (by omega)
  have main : ∀ (jv : Nat) (hj : jv < l.length) (i : Fin l.length),
      (i : Nat) < jv → fhi (l.get i) < flo (l.get ⟨jv, hj⟩) := by
    intro jv
    induction jv with
    | zero => intro hj i hi; exact absurd hi (by omega)
    | succ m ihm =>
      intro hj i hi
      rcases Nat.lt_succ_iff_lt_or_eq.mp hi with h | h
      · have h1 : fhi (l.get i) < flo (l.get ⟨m, by omega⟩) := ihm (by omega) i h
        have h2 : flo (l.get ⟨m, by omega⟩) ≤ fhi (l.get ⟨m, by omega⟩) :=
          hb _ (List.get_mem l m (by omega))
        have h3 := adj m (by omega) hj
        omega
      · have h3 := adj m (by omega) hj
        have hieq : i = (⟨m, by omega⟩ : Fin l.length) := Fin.ext h
        rw [hieq]; exact h3
  intro i j hij
  exact main j.1 j.2 i hij

theorem SDisj.mono {flo fhi : α → Nat} {l : List α} (h : SDisj flo fhi l) (c : Nat) :
    Mono (cmpOf flo fhi c) l := by
  intro i j hij
  constructor
  · intro hj
    rw [cmpOf_eq_lt_iff] at hj ⊢
    have h1 := h.pairwise_lt i j hij
    have h2 : flo (l.get j) ≤ fhi (l.get j) := h.1 _ (fin_get_mem l j)
    omega
  · intro hi
    rw [cmpOf_eq_gt_iff _ _ _ _ (h.1 _ (fin_get_mem l i))] at hi
    rw [cmpOf_eq_gt_iff _ _ _ _ (h.1 _ (fin_get_mem l j))]
    have h1 := h.pairwise_lt i j hij
    have h2 : flo (l.get i) ≤ fhi (l.get i) := h.1 _ (fin_get_mem l i)
    omega

theorem SDisj.sublist {flo fhi : α → Nat} {l l' : List α} (h : SDisj flo fhi l)
    (hs : List.Sublist l' l) : SDisj flo fhi l' := by
  refine ⟨fun e he => h.1 e (hs.subset he), ?_⟩
  have pw : l.Pairwise (fun a b => fhi a < flo b) :=
    List.pairwise_iff_get.mpr fun i j hij => h.pairwise_lt i j hij
  exact (pw.sublist hs).chain'

/-! ## Slices -/

theorem tableSlice_length (l : List α) (a b : Nat) (hb : b ≤ l.length) :
    (tableSlice l a b).length = b - a := by
  simp only [tableSlice, List.length_drop, List.length_take]
  omega

theorem tableSlice_get (l : List α) (a b m : Nat) (hm : m < (tableSlice l a b).length)
    (ham : a + m < l.length) :
    (tableSlice l a b).get ⟨m, hm⟩ = l.get ⟨a + m, ham⟩ := by
  simp only [tableSlice] at hm ⊢
  rw [List.get_eq_getElem, List.get_eq_getElem]
  rw [List.getElem_drop, List.getElem_take]

theorem tableSlice_sublist (l : List α) (a b : Nat) : List.Sublist (tableSlice l a b) l :=
  (List.drop_sublist a (l.take b)).trans (List.take_sublist b l)

/-! ## Characterization of the emitted value-table search -/

theorem binary_search_found (f : α → Ordering) (l : List α) (hm : Mono f l)
    (m : Fin l.length) (hres : binary_search_by f l = .found m) :
    f (l.get m) = .eq := by
  have hspec := binary_search_spec f l hm
  rw [hres] at hspec
  exact hspec

theorem binary_search_notFound (f : α → Ordering) (l : List α) (hm : Mono f l)
    (i : Nat) (hle : i ≤ l.length) (hres : binary_search_by f l = .notFound i hle) :
    (∀ k : Fin l.length, (k : Nat) < i → f (l.get k) = .lt) ∧
    (∀ k : Fin l.length, i ≤ (k : Nat) → f (l.get k) = .gt) := by
  have hspec := binary_search_spec f l hm
  rw [hres] at hspec
  exact hspec

theorem bsearch_rvt_found {C : Type} (c : Nat) (r : List (RangeEntry C))
    (dl du : Nat) (anyV : C) (hsd : SDisj RangeEntry.lo RangeEntry.hi r)
    (m : Fin r.length) (hm1 : (r.get m).lo ≤ c) (hm2 : c ≤ (r.get m).hi) :
    bsearch_range_value_table c r dl du anyV =
      ((r.get m).lo, (r.get m).hi, (r.get m).cat) := by
  unfold bsearch_range_value_table
  cases hres : binary_search_by (cmpOf RangeEntry.lo RangeEntry.hi c) r with
  | found p =>
    have hspec := binary_search_found _ _ (hsd.mono c) p hres
    rw [cmpOf_eq_eq_iff] at hspec
    have hpm : p = m := by
      by_contra hne
      have hv : (p : Nat) ≠ (m : Nat) := fun hv => hne (Fin.ext hv)
      rcases Nat.lt_or_ge (p : Nat) (m : Nat) with hlt | hge
      · have := hsd.pairwise_lt p m hlt; omega
      · have := hsd.pairwise_lt m p (by omega); omega
    subst hpm
    rfl
  | notFound i hle =>
    obtain ⟨hlt, hgt⟩ := binary_search_notFound _ _ (hsd.mono c) i hle hres
    exfalso
    rcases Nat.lt_or_ge (m : Nat) i with hmi | hmi
    · have := hlt m hmi
      rw [cmpOf_eq_lt_iff] at this; omega
    · have := hgt m hmi
      rw [cmpOf_eq_gt_iff _ _ _ _ (hsd.1 _ (fin_get_mem r m))] at this; omega

theorem bsearch_rvt_gap {C : Type} (c : Nat) (r : List (RangeEntry C))
    (dl du : Nat) (anyV : C) (hsd : SDisj RangeEntry.lo RangeEntry.hi r)
    (hmiss : ∀ e ∈ r, ¬(e.lo ≤ c ∧ c ≤ e.hi)) :
    ∃ i, i ≤ r.length ∧
      (∀ k : Fin r.length, (k : Nat) < i → (r.get k).hi < c) ∧
      (∀ k : Fin r.length, i ≤ (k : Nat) → c < (r.get k).lo) ∧
      bsearch_range_value_table c r dl du anyV =
        ((if 0 < i then (r.getD (i - 1) ⟨0, 0, anyV⟩).hi + 1 else dl),
         (if i < r.length then (r.getD i ⟨0, 0, anyV⟩).lo - 1 else du),
         anyV) := by
  unfold bsearch_range_value_table
  cases hres : binary_search_by (cmpOf RangeEntry.lo RangeEntry.hi c) r with
  | found p =>
    have hspec := binary_search_found _ _ (hsd.mono c) p hres
    rw [cmpOf_eq_eq_iff] at hspec
    exact absurd hspec (hmiss _ (fin_get_mem r p))
  | notFound i hle =>
    obtain ⟨hlt, hgt⟩ := binary_search_notFound _ _ (hsd.mono c) i hle hres
    refine ⟨i, hle, ?_, ?_, ?_⟩
    · intro k hk
      have := hlt k hk
      rwa [cmpOf_eq_lt_iff] at this
    · intro k hk
      have := hgt k hk
      rwa [cmpOf_eq_gt_iff _ _ _ _ (hsd.1 _ (fin_get_mem r k))] at this
    · have h1 : (if h : 0 < i then (r.get ⟨i - 1, by omega⟩).hi + 1 else dl)
          = (if 0 < i then (r.getD (i - 1) ⟨0, 0, anyV⟩).hi + 1 else dl) := by
        split_ifs with h
        · rw [List.getD_eq_getElem _ _ (by omega), List.get_eq_getElem]
        · rfl
      have h2 : (match r.get? i with | some e => e.lo - 1 | none => du)
          = (if i < r.length then (r.getD i ⟨0, 0, anyV⟩).lo - 1 else du) := by
        by_cases h : i < r.length
        · rw [List.get?_eq_get h, if_pos h, List.getD_eq_getElem _ _ h,
            List.get_eq_getElem]
        · rw [List.get?_eq_none.mpr (by omega), if_neg h]
      exact Prod.ext h1 (Prod.ext h2 rfl)

/-! ## The boolean membership search -/

theorem bsearch_pairs_iff (c : Nat) (r : List (Nat × Nat))
    (hsd : SDisj Prod.fst Prod.snd r) :
    bsearch_range_table c r = true ↔ ∃ p ∈ r, p.1 ≤ c ∧ c ≤ p.2 := by
  constructor
  · intro htrue
    unfold bsearch_range_table at htrue
    cases hres : binary_search_by (cmpOf Prod.fst Prod.snd c) r with
    | found p =>
      have hspec := binary_search_found _ _ (hsd.mono c) p hres
      rw [cmpOf_eq_eq_iff] at hspec
      exact ⟨r.get p, fin_get_mem r p, hspec⟩
    | notFound i hle =>
      rw [hres] at htrue
      exact Bool.noConfusion htrue
  · rintro ⟨p, hp, hp1, hp2⟩
    unfold bsearch_range_table
    cases hres : binary_search_by (cmpOf Prod.fst Prod.snd c) r with
    | found q => rfl
    | notFound i hle =>
      obtain ⟨hlt, hgt⟩ := binary_search_notFound _ _ (hsd.mono c) i hle hres
      exfalso
      obtain ⟨k, hk⟩ := List.mem_iff_get.mp hp
      rcases Nat.lt_or_ge (k : Nat) i with hki | hki
      · have := hlt k hki
        rw [cmpOf_eq_lt_iff] at this
        rw [hk] at this; omega
      · have := hgt k hki
        rw [cmpOf_eq_gt_iff _ _ _ _ (hsd.1 _ (fin_get_mem r k))] at this
        rw [hk] at this; omega

/-! ## The coarse-index build -/

theorem advanceLoop_spec {C : Type} (t : Nat) (suffix : List (RangeEntry C)) :
    ∀ j : Nat,
      j ≤ advanceLoop t j suffix ∧
      advanceLoop t j suffix ≤ j + suffix.length ∧
      (∀ m (hm : m < suffix.length), j + m < advanceLoop t j suffix →
        (suffix.get ⟨m, hm⟩).hi < t) ∧
      (∀ m (hm : m < suffix.length), j + m = advanceLoop t j suffix →
        t ≤ (suffix.get ⟨m, hm⟩).hi) := by
  induction suffix with
  | nil =>
    intro j
    simp only [advanceLoop, List.length_nil]
    exact ⟨le_refl j, by omega, fun m hm => absurd hm (by omega),
      fun m hm => absurd hm (by omega)⟩
  | cons e es ih =>
    intro j
    by_cases h : t ≤ e.hi
    · simp only [advanceLoop, if_pos h, List.length_cons]
      refine ⟨le_refl j, by omega, fun m hm hlt => absurd hlt (by omega), ?_⟩
      intro m hm hme
      have hm0 : m = 0 := by omega
      subst hm0
      exact h
    · simp only [advanceLoop, if_neg h, List.length_cons]
      obtain ⟨ih1, ih2, ih3, ih4⟩ := ih (j + 1)
      refine ⟨by omega, by omega, ?_, ?_⟩
      · intro m hm hlt
        cases m with
        | zero => exact (by omega : e.hi < t)
        | succ m' =>
          have hstep : ((e :: es).get ⟨m' + 1, hm⟩ : RangeEntry C)
              = es.get ⟨m', by omega⟩ := rfl
          rw [hstep]
          exact ih3 m' (by omega) (by omega)
      · intro m hm hme
        cases m with
        | zero => exact absurd hme (by omega)
        | succ m' =>
          have hstep : ((e :: es).get ⟨m' + 1, hm⟩ : RangeEntry C)
              = es.get ⟨m', by omega⟩ := rfl
          rw [hstep]
          exact ih4 m' (by omega) (by omega)

theorem advanceLoop_first_ge {C : Type} (tbl : List (RangeEntry C)) (t j : Nat)
    (hj : j ≤ tbl.length)
    (hbelow : ∀ k : Fin tbl.length, (k : Nat) < j → (tbl.get k).hi < t) :
    IsFirstGe tbl t (advanceLoop t j (tbl.drop j)) := by
  obtain ⟨h1, h2, h3, h4⟩ := advanceLoop_spec t (tbl.drop j) j
  have hdl : (tbl.drop j).length = tbl.length - j := List.length_drop j tbl
  refine ⟨by omega, ?_, ?_⟩
  · intro k hk
    rcases Nat.lt_or_ge (k : Nat) j with hkj | hkj
    · exact hbelow k hkj
    · have hd : (tbl.drop j).get ⟨(k : Nat) - j, by omega⟩ = tbl.get k := by
        rw [List.get_eq_getElem, List.get_eq_getElem]
        simp only [Fin.val_mk]
        rw [List.getElem_drop]
        congr 1
        omega
      have := h3 ((k : Nat) - j) (by omega) (by omega)
      rw [hd] at this
      exact this
  · intro hv
    have hjv : j ≤ advanceLoop t j (tbl.drop j) := h1
    have hd : (tbl.drop j).get ⟨advanceLoop t j (tbl.drop j) - j, by omega⟩
        = tbl.get ⟨advanceLoop t j (tbl.drop j), hv⟩ := by
      rw [List.get_eq_getElem, List.get_eq_getElem]
      simp only [Fin.val_mk]
      rw [List.getElem_drop]
      congr 1
      omega
    have := h4 (advanceLoop t j (tbl.drop j) - j) (by omega) (by omega)
    rw [hd] at this
    exact this

theorem buildLookupAux_length {C : Type} (tbl : List (RangeEntry C)) (stride : Nat) :
    ∀ (count i j : Nat), (buildLookupAux tbl stride i count j).length = count := by
  intro count
  induction count with
  | zero => intro i j; rfl
  | succ n ih =>
    intro i j
    simp only [buildLookupAux, List.length_cons, ih]

theorem buildLookupAux_first_ge {C : Type} (tbl : List (RangeEntry C)) (stride : Nat) :
    ∀ (count i j m : Nat), j ≤ tbl.length →
      (∀ k : Fin tbl.length, (k : Nat) < j → (tbl.get k).hi < i * stride) →
      m < count →
      IsFirstGe tbl ((i + m) * stride) ((buildLookupAux tbl stride i count j).getD m 0) := by
  intro count
  induction count with
  | zero => intro i j m hj hb hm; exact absurd hm (by omega)
  | succ n ih =>
    intro i j m hj hb hm
    have hv := advanceLoop_first_ge tbl (i * stride) j hj hb
    cases m with
    | zero =>
      simp only [buildLookupAux, List.getD_cons_zero]
      simpa using hv
    | succ m' =>
      have hb' : ∀ k : Fin tbl.length,
          (k : Nat) < advanceLoop (i * stride) j (tbl.drop j) →
          (tbl.get k).hi < (i + 1) * stride := by
        intro k hk
        have h1 := hv.2.1 k hk
        have h2 : i * stride ≤ (i + 1) * stride := Nat.mul_le_mul_right stride (by omega)
        omega
      have := ih (i + 1) (advanceLoop (i * stride) j (tbl.drop j)) m' hv.1 hb' (by omega)
      have harith : i + 1 + m' = i + (m' + 1) := by omega
      rw [harith] at this
      simpa only [buildLookupAux, List.getD_cons_succ] using this

theorem lookup_table_entry_first_ge {C : Type} (tbl : List (RangeEntry C))
    (n stride i : Nat) (hi : i < n) :
    IsFirstGe tbl (i * stride) ((lookup_table tbl n stride).getD i 0) := by
  have := buildLookupAux_first_ge tbl stride n 0 0 i (by omega)
    (fun k hk => absurd hk (by omega)) hi
  simpa using this

theorem lookup_table_length {C : Type} (tbl : List (RangeEntry C)) (n stride : Nat) :
    (lookup_table tbl n stride).length = n :=
  buildLookupAux_length tbl stride n 0 0

theorem IsFirstGe.mono_le {C : Type} {tbl : List (RangeEntry C)} {t t' v v' : Nat}
    (h : IsFirstGe tbl t v) (h' : IsFirstGe tbl t' v') (htt : t ≤ t') : v ≤ v' := by
  by_contra hlt
  push_neg at hlt
  have hv' : v' < tbl.length := by
    have := h.1
    omega
  have h1 := h.2.1 ⟨v', hv'⟩ (show v' < v by omega)
  have h2 := h'.2.2 hv'
  omega

theorem IsFirstGe.lt_length {C : Type} {tbl : List (RangeEntry C)} {t v : Nat}
    (h : IsFirstGe tbl t v) (hex : ∃ e ∈ tbl, t ≤ e.hi) : v < tbl.length := by
  rcases hex with ⟨e, he, hte⟩
  obtain ⟨k, hk⟩ := List.mem_iff_get.mp he
  by_contra hge
  push_neg at hge
  have := h.2.1 k (by omega)
  rw [hk] at this
  omega

theorem IsFirstGe.eq_length_iff {C : Type} {tbl : List (RangeEntry C)} {t v : Nat}
    (h : IsFirstGe tbl t v) : v = tbl.length ↔ ∀ e ∈ tbl, e.hi < t := by
  constructor
  · intro hv e he
    obtain ⟨k, hk⟩ := List.mem_iff_get.mp he
    have := h.2.1 k (by omega)
    rw [hk] at this
    exact this
  · intro hall
    by_contra hne
    have hv : v < tbl.length := by
      have := h.1
      omega
    have := h.2.2 hv
    have := hall _ (fin_get_mem tbl ⟨v, hv⟩)
    omega

theorem getLastD_eq_getD (l : List Nat) (d : Nat) :
    l.getLastD d = l.getD (l.length - 1) d := by
  rw [List.getLastD_eq_getLast?, List.getLast?_eq_getElem?, List.getD_eq_getElem?_getD]

/-! ## The classifier window -/

theorem div_bounds (c s : Nat) (hs : 0 < s) : c / s * s ≤ c ∧ c < c / s * s + s := by
  have h1 := Nat.div_add_mod' c s
  have h2 := Nat.mod_lt c hs
  omega

theorem winBounds_spec {C : Type} (tbl : List (RangeEntry C)) (n stride c : Nat)
    (hs : 0 < stride) (hn : 2 ≤ n)
    (hsd : SDisj RangeEntry.lo RangeEntry.hi tbl)
    (hcov : ∃ e ∈ tbl, (n - 1) * stride ≤ e.hi) (a b : Nat)
    (hw : winBounds n (lookup_table tbl n stride)
      ((lookup_table tbl n stride).getLastD 0, tbl.length) (c / stride) = (a, b)) :
    a ≤ b ∧ b ≤ tbl.length ∧
    (∀ j : Fin tbl.length, (j : Nat) < a → (tbl.get j).hi < c / stride * stride) ∧
    (∀ j : Fin tbl.length, b ≤ (j : Nat) → c < (tbl.get j).lo) ∧
    (b = tbl.length ∨
      (0 < b ∧ ∀ h : b - 1 < tbl.length, c ≤ (tbl.get ⟨b - 1, h⟩).hi)) := by
  have hdiv := div_bounds c stride hs
  unfold winBounds at hw
  by_cases h : c / stride + 2 ≤ n
  · rw [if_pos h] at hw
    cases hw
    have hA := lookup_table_entry_first_ge tbl n stride (c / stride) (by omega)
    have hB := lookup_table_entry_first_ge tbl n stride (c / stride + 1) (by omega)
    have hBlt : (lookup_table tbl n stride).getD (c / stride + 1) 0 < tbl.length := by
      refine hB.lt_length ?_
      obtain ⟨e, he, hce⟩ := hcov
      exact ⟨e, he, le_trans (Nat.mul_le_mul_right stride (by omega)) hce⟩
    have hmul : (c / stride + 1) * stride = c / stride * stride + stride := by
      rw [Nat.succ_mul]
    refine ⟨?_, by omega, ?_, ?_, ?_⟩
    · have := hA.mono_le hB (Nat.mul_le_mul_right stride (by omega))
      omega
    · intro j hj
      exact hA.2.1 j hj
    · intro j hj
      have h1 := hB.2.2 hBlt
      have h2 := hsd.pairwise_lt ⟨(lookup_table tbl n stride).getD (c / stride + 1) 0, hBlt⟩ j
        (show (lookup_table tbl n stride).getD (c / stride + 1) 0 < (j : Nat) by omega)
      have h3 : (tbl.get j).lo ≤ (tbl.get j).hi := hsd.1 _ (fin_get_mem tbl j)
      omega
    · right
      refine ⟨by omega, ?_⟩
      intro hlast
      simp only [Nat.add_sub_cancel] at hlast ⊢
      have h1 := hB.2.2 hlast
      omega
  · rw [if_neg h] at hw
    cases hw
    have hL : (lookup_table tbl n stride).getLastD 0
        = (lookup_table tbl n stride).getD (n - 1) 0 := by
      rw [getLastD_eq_getD, lookup_table_length]
    have hJ := lookup_table_entry_first_ge tbl n stride (n - 1) (by omega)
    rw [← hL] at hJ
    refine ⟨?_, le_refl _, ?_, ?_, Or.inl rfl⟩
    · exact hJ.1
    · intro j hj
      have h1 := hJ.2.1 j hj
      have h2 : (n - 1) * stride ≤ c / stride * stride :=
        Nat.mul_le_mul_right stride (by omega)
      omega
    · intro j hj
      exact absurd j.isLt (by omega)

theorem category_hit_master {C : Type} (tbl : List (RangeEntry C)) (n stride : Nat)
    (anyV : C) (c a b : Nat) (hs : 0 < stride) (hn : 2 ≤ n)
    (hsd : SDisj RangeEntry.lo RangeEntry.hi tbl)
    (hcov : ∃ e ∈ tbl, (n - 1) * stride ≤ e.hi)
    (hw : winBounds n (lookup_table tbl n stride)
      ((lookup_table tbl n stride).getLastD 0, tbl.length) (c / stride) = (a, b))
    (m : Fin tbl.length) (hm1 : (tbl.get m).lo ≤ c) (hm2 : c ≤ (tbl.get m).hi) :
    category n (lookup_table tbl n stride) tbl stride
      ((lookup_table tbl n stride).getLastD 0, tbl.length) anyV c =
      some ((tbl.get m).lo, (tbl.get m).hi, (tbl.get m).cat) := by
  obtain ⟨hab, hblen, hW2, hW3, hW4⟩ := winBounds_spec tbl n stride c hs hn hsd hcov a b hw
  have hdiv := div_bounds c stride hs
  have ham : a ≤ (m : Nat) := by
    by_contra hma
    push_neg at hma
    have := hW2 m hma
    omega
  have hmb : (m : Nat) < b := by
    by_contra hbm
    push_neg at hbm
    have := hW3 m hbm
    omega
  have hwlen : (tableSlice tbl a b).length = b - a := tableSlice_length tbl a b hblen
  have hm' : (m : Nat) - a < (tableSlice tbl a b).length := by omega
  have hget : (tableSlice tbl a b).get ⟨(m : Nat) - a, hm'⟩ = tbl.get m := by
    rw [tableSlice_get tbl a b ((m : Nat) - a) hm' (by omega)]
    exact congrArg tbl.get (Fin.ext (show a + ((m : Nat) - a) = (m : Nat) by omega))
  simp only [category, hw]
  rw [if_pos ⟨hab, hblen⟩]
  refine congrArg some ?_
  have hfound := bsearch_rvt_found c (tableSlice tbl a b) (c / stride * stride)
    (c / stride * stride + stride - 1) anyV (hsd.sublist (tableSlice_sublist tbl a b))
    ⟨(m : Nat) - a, hm'⟩ (by rw [hget]; exact hm1) (by rw [hget]; exact hm2)
  rw [hfound, hget]

theorem category_gap_master {C : Type} (tbl : List (RangeEntry C)) (n stride : Nat)
    (anyV : C) (c a b : Nat) (hs : 0 < stride) (hn : 2 ≤ n)
    (hsd : SDisj RangeEntry.lo RangeEntry.hi tbl)
    (hcov : ∃ e ∈ tbl, (n - 1) * stride ≤ e.hi)
    (hw : winBounds n (lookup_table tbl n stride)
      ((lookup_table tbl n stride).getLastD 0, tbl.length) (c / stride) = (a, b))
    (hmiss : ∀ e ∈ tbl, ¬(e.lo ≤ c ∧ c ≤ e.hi)) :
    ∃ K, a ≤ K ∧ K ≤ b ∧ K ≤ tbl.length ∧
      (∀ j : Fin tbl.length, (j : Nat) < a → (tbl.get j).hi < c / stride * stride) ∧
      (∀ j : Fin tbl.length, (j : Nat) < K → (tbl.get j).hi < c) ∧
      (∀ j : Fin tbl.length, K ≤ (j : Nat) → c < (tbl.get j).lo) ∧
      (K < b ↔ K < tbl.length) ∧
      category n (lookup_table tbl n stride) tbl stride
        ((lookup_table tbl n stride).getLastD 0, tbl.length) anyV c =
        some ((if a < K then (tbl.getD (K - 1) ⟨0, 0, anyV⟩).hi + 1 else c / stride * stride),
              (if K < b then (tbl.getD K ⟨0, 0, anyV⟩).lo - 1
               else c / stride * stride + stride - 1),
              anyV) := by
  obtain ⟨hab, hblen, hW2, hW3, hW4⟩ := winBounds_spec tbl n stride c hs hn hsd hcov a b hw
  have hdiv := div_bounds c stride hs
  have hwlen : (tableSlice tbl a b).length = b - a := tableSlice_length tbl a b hblen
  obtain ⟨i, hile, hlt, hgt, heq⟩ := bsearch_rvt_gap c (tableSlice tbl a b)
    (c / stride * stride) (c / stride * stride + stride - 1) anyV
    (hsd.sublist (tableSlice_sublist tbl a b))
    (fun e he => hmiss e ((tableSlice_sublist tbl a b).subset he))
  have hgetw : ∀ (jv : Nat) (hja : a ≤ jv) (hjb : jv < b) (hjl : jv < tbl.length),
      (tableSlice tbl a b).get ⟨jv - a, by omega⟩ = tbl.get ⟨jv, hjl⟩ := by
    intro jv hja hjb hjl
    rw [tableSlice_get tbl a b (jv - a) (by omega) (by omega)]
    exact congrArg tbl.get (Fin.ext (show a + (jv - a) = jv by omega))
  have hFullLt : ∀ j : Fin tbl.length, (j : Nat) < a + i → (tbl.get j).hi < c := by
    intro j hj
    rcases Nat.lt_or_ge (j : Nat) a with hja | hja
    · have := hW2 j hja
      omega
    · have hg := hgetw (j : Nat) hja (by omega) j.isLt
      have := hlt ⟨(j : Nat) - a, by omega⟩ (show (j : Nat) - a < i by omega)
      rw [hg] at this
      exact this
  have hFullGt : ∀ j : Fin tbl.length, a + i ≤ (j : Nat) → c < (tbl.get j).lo := by
    intro j hj
    rcases Nat.lt_or_ge (j : Nat) b with hjb | hjb
    · have hg := hgetw (j : Nat) (by omega) hjb j.isLt
      have := hgt ⟨(j : Nat) - a, by omega⟩ (show i ≤ (j : Nat) - a by omega)
      rw [hg] at this
      exact this
    · exact hW3 j hjb
  have hiff : a + i < b ↔ a + i < tbl.length := by
    constructor
    · intro h
      omega
    · intro h
      by_contra hge
      push_neg at hge
      rcases hW4 with hb | ⟨hbpos, hlast⟩
      · omega
      · have hbl : b - 1 < tbl.length := by omega
        have h1 := hlast hbl
        have h2 := hFullLt ⟨b - 1, hbl⟩ (show b - 1 < a + i by omega)
        omega
  have hgetD : ∀ m : Nat, m < b - a →
      (tableSlice tbl a b).getD m ⟨0, 0, anyV⟩ = tbl.getD (a + m) ⟨0, 0, anyV⟩ := by
    intro m hm
    have h1 : m < (tableSlice tbl a b).length := by omega
    have h2 : a + m < tbl.length := by omega
    rw [List.getD_eq_getElem _ _ h1, List.getD_eq_getElem _ _ h2]
    simp only [tableSlice]
    rw [List.getElem_drop, List.getElem_take]
  refine ⟨a + i, by omega, by omega, by omega, hW2, hFullLt, hFullGt, hiff, ?_⟩
  simp only [category, hw]
  rw [if_pos ⟨hab, hblen⟩]
  refine congrArg some ?_
  rw [heq]
  have hc1 : (if 0 < i then ((tableSlice tbl a b).getD (i - 1) ⟨0, 0, anyV⟩).hi + 1
        else c / stride * stride)
      = (if a < a + i then (tbl.getD (a + i - 1) ⟨0, 0, anyV⟩).hi + 1
        else c / stride * stride) := by
    by_cases hip : 0 < i
    · rw [if_pos hip, if_pos (show a < a + i by omega), hgetD (i - 1) (by omega)]
      have harith : a + (i - 1) = a + i - 1 := by omega
      rw [harith]
    · rw [if_neg hip, if_neg (show ¬(a < a + i) by omega)]
  have hc2 : (if i < (tableSlice tbl a b).length
        then ((tableSlice tbl a b).getD i ⟨0, 0, anyV⟩).lo - 1
        else c / stride * stride + stride - 1)
      = (if a + i < b then (tbl.getD (a + i) ⟨0, 0, anyV⟩).lo - 1
        else c / stride * stride + stride - 1) := by
    by_cases hib : i < (tableSlice tbl a b).length
    · rw [if_pos hib, if_pos (show a + i < b by omega), hgetD i (by omega)]
    · rw [if_neg hib, if_neg (show ¬(a + i < b) by omega)]
  exact Prod.ext hc1 (Prod.ext hc2 rfl)

/-! ## The interval compressor -/

theorem mem_insertSorted (x a : Nat) (l : List Nat) :
    a ∈ insertSorted x l ↔ a = x ∨ a ∈ l := by
  induction l with
  | nil => simp [insertSorted]
  | cons y ys ih =>
    simp only [insertSorted]
    split_ifs with h1 h2
    · simp [List.mem_cons]
    · subst h2
      simp only [List.mem_cons]
      tauto
    · simp only [List.mem_cons, ih]
      tauto

theorem sorted_insertSorted (x : Nat) (l : List Nat) (h : List.Sorted (· < ·) l) :
    List.Sorted (· < ·) (insertSorted x l) := by
  induction l with
  | nil => simp [insertSorted]
  | cons y ys ih =>
    rw [List.sorted_cons] at h
    obtain ⟨hy, hys⟩ := h
    simp only [insertSorted]
    split_ifs with h1 h2
    · rw [List.sorted_cons]
      constructor
      · intro b hb
        rcases List.mem_cons.mp hb with rfl | hb2
        · exact h1
        · have := hy b hb2
          omega
      · rw [List.sorted_cons]
        exact ⟨hy, hys⟩
    · rw [List.sorted_cons]
      exact ⟨hy, hys⟩
    · rw [List.sorted_cons]
      refine ⟨?_, ih hys⟩
      intro b hb
      rw [mem_insertSorted] at hb
      rcases hb with rfl | hb2
      · omega
      · exact hy b hb2

theorem sortedDedup_sorted (l : List Nat) : List.Sorted (· < ·) (sortedDedup l) := by
  induction l with
  | nil => simp [sortedDedup]
  | cons x xs ih => exact sorted_insertSorted x _ ih

theorem mem_sortedDedup (l : List Nat) (a : Nat) : a ∈ sortedDedup l ↔ a ∈ l := by
  induction l with
  | nil => simp [sortedDedup]
  | cons x xs ih =>
    show a ∈ insertSorted x (sortedDedup xs) ↔ _
    rw [mem_insertSorted, ih]
    simp [List.mem_cons]

theorem groupRun_master :
    ∀ (ls : List Nat) (start curEnd : Nat), start ≤ curEnd →
      List.Chain (· < ·) curEnd ls →
      ∃ t rest, groupRun start curEnd ls = (start, t) :: rest ∧ curEnd ≤ t ∧
        (∀ p ∈ (start, t) :: rest, start ≤ p.1 ∧ p.1 ≤ p.2) ∧
        List.Pairwise (fun p q : Nat × Nat => p.1 < q.1) ((start, t) :: rest) ∧
        List.Chain' (fun p q : Nat × Nat => p.2 + 1 < q.1) ((start, t) :: rest) ∧
        covers ((start, t) :: rest) = Finset.Icc start curEnd ∪ ls.toFinset := by
  intro ls
  induction ls with
  | nil =>
    intro start curEnd hse hch
    refine ⟨curEnd, [], rfl, le_refl _, ?_, List.pairwise_singleton _ _,
      List.chain'_singleton _, ?_⟩
    · intro p hp
      simp only [List.mem_singleton] at hp
      subst hp
      exact ⟨le_refl _, hse⟩
    · show Finset.Icc start curEnd ∪ ∅ = _
      simp
  | cons l ls ih =>
    intro start curEnd hse hch
    obtain ⟨hcl, hch2⟩ : curEnd < l ∧ List.Chain (· < ·) l ls := by
      cases hch with
      | cons h1 h2 => exact ⟨h1, h2⟩
    by_cases hl : l = curEnd + 1
    · subst hl
      obtain ⟨t, rest, heq, hlt, hmem, hpw, hcg, hcov⟩ := ih start (curEnd + 1) (by omega) hch2
      refine ⟨t, rest, ?_, by omega, hmem, hpw, hcg, ?_⟩
      · simp only [groupRun, if_pos rfl]
        exact heq
      · rw [hcov]
        ext x
        simp only [Finset.mem_union, Finset.mem_Icc, List.toFinset_cons,
          Finset.mem_insert, List.mem_toFinset]
        have harith : (start ≤ x ∧ x ≤ curEnd + 1)
            ↔ ((start ≤ x ∧ x ≤ curEnd) ∨ x = curEnd + 1) := by omega
        rw [harith]
        tauto
    · have hl2 : curEnd + 1 < l := by omega
      obtain ⟨t, rest, heq, hlt, hmem, hpw, hcg, hcov⟩ := ih l l (le_refl l) hch2
      refine ⟨curEnd, (l, t) :: rest, ?_, le_refl _, ?_, ?_, ?_, ?_⟩
      · simp only [groupRun, if_neg hl]
        rw [heq]
      · intro p hp
        rcases List.mem_cons.mp hp with hp1 | hp2
        · subst hp1
          exact ⟨le_refl _, hse⟩
        · rw [← heq] at hp2
          rw [heq] at hp2
          have := hmem p hp2
          exact ⟨by omega, this.2⟩
      · refine List.Pairwise.cons ?_ hpw
        intro q hq
        have := hmem q hq
        show start < q.1
        omega
      · refine List.chain'_cons.mpr ⟨?_, hcg⟩
        show curEnd + 1 < l
        exact hl2
      · have hcstep : covers ((start, curEnd) :: (l, t) :: rest)
            = Finset.Icc start curEnd ∪ covers ((l, t) :: rest) := rfl
        rw [hcstep, hcov]
        ext x
        simp only [Finset.mem_union, Finset.mem_Icc, List.toFinset_cons,
          Finset.mem_insert, List.mem_toFinset]
        have harith : (l ≤ x ∧ x ≤ l) ↔ x = l := by omega
        rw [harith]

theorem group_cat_master (l : List Nat) :
    covers (group_cat l) = l.toFinset ∧
    (∀ p ∈ group_cat l, p.1 ≤ p.2) ∧
    List.Pairwise (fun p q : Nat × Nat => p.1 < q.1) (group_cat l) ∧
    List.Chain' (fun p q : Nat × Nat => p.2 + 1 < q.1) (group_cat l) := by
  cases hsd : sortedDedup l with
  | nil =>
    have hgc : group_cat l = [] := by
      unfold group_cat
      rw [hsd]
    have hl : l.toFinset = ∅ := by
      ext x
      simp only [List.mem_toFinset, Finset.not_mem_empty, iff_false]
      intro hx
      have := (mem_sortedDedup l x).mpr hx
      rw [hsd] at this
      exact absurd this (List.not_mem_nil x)
    rw [hgc, hl]
    exact ⟨rfl, by simp, by simp, by simp⟩
  | cons x xs =>
    have hgc : group_cat l = groupRun x x xs := by
      unfold group_cat
      rw [hsd]
    have hsorted := sortedDedup_sorted l
    rw [hsd, List.sorted_cons] at hsorted
    obtain ⟨hx, hxs⟩ := hsorted
    have hch : List.Chain (· < ·) x xs :=
      List.chain_iff_pairwise.mpr (List.sorted_cons.mpr ⟨hx, hxs⟩)
    obtain ⟨t, rest, heq, hlt, hmem, hpw, hcg, hcov⟩ := groupRun_master xs x x (le_refl x) hch
    rw [hgc, heq]
    refine ⟨?_, fun p hp => (hmem p hp).2, hpw, hcg⟩
    rw [hcov]
    ext z
    simp only [Finset.mem_union, Finset.mem_Icc, List.mem_toFinset]
    have hz : z ∈ l ↔ z ∈ sortedDedup l := (mem_sortedDedup l z).symm
    rw [hz, hsd]
    simp only [List.mem_cons]
    constructor
    · rintro (⟨h1, h2⟩ | h3)
      · left
        omega
      · right
        exact h3
    · rintro (rfl | h3)
      · left
        exact ⟨le_refl _, le_refl _⟩
      · right
        exact h3

theorem mem_covers (L : List (Nat × Nat)) (x : Nat) :
    x ∈ covers L ↔ ∃ p ∈ L, p.1 ≤ x ∧ x ≤ p.2 := by
  induction L with
  | nil => simp [covers]
  | cons p ps ih =>
    show x ∈ Finset.Icc p.1 p.2 ∪ covers ps ↔ _
    rw [Finset.mem_union, Finset.mem_Icc, ih]
    constructor
    · rintro (h | ⟨q, hq, h1, h2⟩)
      · exact ⟨p, List.mem_cons_self p ps, h⟩
      · exact ⟨q, List.mem_cons_of_mem p hq, h1, h2⟩
    · rintro ⟨q, hq, h1, h2⟩
      rcases List.mem_cons.mp hq with rfl | hq2
      · exact Or.inl ⟨h1, h2⟩
      · exact Or.inr ⟨q, hq2, h1, h2⟩

/-! ## The overlap scan -/

theorem overlap_check_iff :
    ∀ (t : List (RangeEntry String)) (last : Int),
      overlap_check last t = true ↔
        ((∀ e ∈ t.head?, last < (e.lo : Int)) ∧
         List.Chain' (fun a b : RangeEntry String => a.hi < b.lo) t) := by
  intro t
  induction t with
  | nil =>
    intro last
    simp [overlap_check]
  | cons e es ih =>
    intro last
    simp only [overlap_check]
    split_ifs with h
    · simp only [Bool.false_eq_true, false_iff]
      rintro ⟨hh, _⟩
      have := hh e (by simp)
      omega
    · rw [ih e.hi, List.chain'_cons']
      constructor
      · rintro ⟨hh, hc⟩
        refine ⟨?_, ?_, hc⟩
        · intro f hf
          simp only [List.head?_cons, Option.mem_def, Option.some.injEq] at hf
          subst hf
          omega
        · intro f hf
          have := hh f hf
          have hcast : ((e.hi : Int) : Int) < (f.lo : Int) := this
          exact_mod_cast hcast
      · rintro ⟨_, hh, hc⟩
        refine ⟨?_, hc⟩
        intro f hf
        have := hh f hf
        exact_mod_cast this

/-! ## Claim theorems: compression, table builds, membership, emission -/

/-- Claim C2: for every non-empty finite set S of code points given to the
interval compressor (here: the member set of the input list), the union of
the output intervals equals S exactly, every output interval has low at most
high, the intervals are sorted strictly ascending by low bound, and no two
consecutive output intervals are mergeable (no high + 1 equal to the next
low). -/
theorem group_cat_compression_correct (l : List Nat) (hne : l ≠ []) :
    covers (group_cat l) = l.toFinset ∧
    (∀ p ∈ group_cat l, p.1 ≤ p.2) ∧
    List.Sorted (fun p q : Nat × Nat => p.1 < q.1) (group_cat l) ∧
    List.Chain' (fun p q : Nat × Nat => p.2 + 1 ≠ q.1) (group_cat l) := by
  obtain ⟨h1, h2, h3, h4⟩ := group_cat_master l
  exact ⟨h1, h2, h3, h4.imp fun a b h => by omega⟩

/-- Witness for C2 at the concrete set 0x41..0x43 together with 0x61, 0x62. -/
theorem group_cat_compression_correct_witness :
    covers (group_cat [0x41, 0x42, 0x43, 0x61, 0x62])
      = [0x41, 0x42, 0x43, 0x61, 0x62].toFinset ∧
    (∀ p ∈ group_cat [0x41, 0x42, 0x43, 0x61, 0x62], p.1 ≤ p.2) ∧
    List.Sorted (fun p q : Nat × Nat => p.1 < q.1)
      (group_cat [0x41, 0x42, 0x43, 0x61, 0x62]) ∧
    List.Chain' (fun p q : Nat × Nat => p.2 + 1 ≠ q.1)
      (group_cat [0x41, 0x42, 0x43, 0x61, 0x62]) :=
  group_cat_compression_correct [0x41, 0x42, 0x43, 0x61, 0x62] (by decide)

/-- Claim C4 counterexample: the word combined-table build is run with no
overlap scan; on two source categories with overlapping ranges it produces
a table (with the overlap still present) instead of aborting. -/
theorem word_table_overlap_not_aborted_cex :
    word_build [("A", [(0, 10)]), ("B", [(5, 6)])] = [⟨0, 10, "A"⟩, ⟨5, 6, "B"⟩] ∧
    ¬ List.Chain' (fun a b : RangeEntry String => a.hi < b.lo)
      (word_build [("A", [(0, 10)]), ("B", [(5, 6)])]) := by
  refine ⟨by decide, ?_⟩
  intro hch
  rw [(by decide : word_build [("A", [(0, 10)]), ("B", [(5, 6)])]
    = [⟨0, 10, "A"⟩, ⟨5, 6, "B"⟩])] at hch
  rw [List.chain'_cons] at hch
  exact absurd hch.1 (by decide)

/-- Claim C4 (amended): only the grapheme combined-table build checks
disjointness; if after sorting some adjacent pair overlaps (the earlier
high bound not strictly below the later low bound), the grapheme build
aborts.  The word, sentence and emoji tables are built without the check. -/
theorem grapheme_overlap_aborts (cats : List (String × List (Nat × Nat)))
    (hover : ¬ List.Chain' (fun a b : RangeEntry String => a.hi < b.lo)
      (build_break_table cats)) :
    grapheme_build cats = none := by
  have hfalse : overlap_check (-1) (build_break_table cats) = false := by
    by_contra h
    rw [Bool.not_eq_false] at h
    exact hover ((overlap_check_iff _ _).mp h).2
  simp [grapheme_build, hfalse]

/-- Witness for C4 (amended) at a concrete overlapping input. -/
theorem grapheme_overlap_aborts_witness :
    grapheme_build [("A", [(0, 10)]), ("B", [(5, 6)])] = none := by
  refine grapheme_overlap_aborts _ ?_
  intro hch
  rw [(by decide : build_break_table [("A", [(0, 10)]), ("B", [(5, 6)])]
    = [⟨0, 10, "A"⟩, ⟨5, 6, "B"⟩])] at hch
  rw [List.chain'_cons] at hch
  exact absurd hch.1 (by decide)

/-- Claim C6 counterexample: the per-property compression of
load_properties does not excise surrogates: a raw range crossing the
surrogate block survives unchanged, so the surrogate 0xD800 lies inside a
produced interval. -/
theorem surrogate_excision_cex :
    props_optimize [(0xD7FF, 0xD801)] = [(0xD7FF, 0xD801)] ∧
    is_surrogate 0xD800 = true := by decide

/-- Claim C6 (amended): surrogates are excised only in the grapheme Control
fix-up, which removes the surrogate block from the member set before
recompression; no code point of any interval it produces is a surrogate. -/
theorem control_fix_excises_surrogates :
    ∀ (ranges : List (Nat × Nat)) (p : Nat × Nat), p ∈ control_fix ranges →
      ∀ x : Nat, p.1 ≤ x → x ≤ p.2 → is_surrogate x = false := by
  intro ranges p hp x h1 h2
  have hx : x ∈ covers (control_fix ranges) := (mem_covers _ x).mpr ⟨p, hp, h1, h2⟩
  unfold control_fix at hx
  rw [(group_cat_master _).1] at hx
  rw [List.mem_toFinset, List.mem_filter] at hx
  simpa using hx.2

/-- Witness for C6 (amended): the range 0xD700..0xD900 is cut back to end
at 0xD7FF, whose members are not surrogates. -/
theorem control_fix_excises_surrogates_witness :
    (0xD700, 0xD7FF) ∈ control_fix [(0xD700, 0xD900)] ∧
    is_surrogate 0xD7FF = false :=
  ⟨by decide,
    control_fix_excises_surrogates [(0xD700, 0xD900)] (0xD700, 0xD7FF) (by decide)
      0xD7FF (by decide) (by decide)⟩

/-- Claim C7: for every built coarse index and every bucket i below the
bucket count, the stored value is the index in the table of the first entry
whose high bound is at least i times the bucket stride: every entry at a
strictly smaller index has a smaller high bound, and the entry at the
stored index, when it exists, has high bound at least the bucket low. -/
theorem coarse_index_entry_spec {C : Type} (tbl : List (RangeEntry C))
    (n stride i : Nat) (hi : i < n) :
    IsFirstGe tbl (i * stride) ((lookup_table tbl n stride).getD i 0) :=
  lookup_table_entry_first_ge tbl n stride i hi

/-- Witness for C7 at a one-entry table, two buckets of stride 4. -/
theorem coarse_index_entry_spec_witness :
    IsFirstGe ([⟨0, 5, "A"⟩] : List (RangeEntry String)) (1 * 4)
      ((lookup_table ([⟨0, 5, "A"⟩] : List (RangeEntry String)) 2 4).getD 1 0) :=
  coarse_index_entry_spec ([⟨0, 5, "A"⟩] : List (RangeEntry String)) 2 4 1 (by decide)

/-- Claim C8: the emitted boolean membership classifier answers true
exactly when some interval of the sorted disjoint list contains the valid
code point. -/
theorem bsearch_range_table_iff_member (c : Nat) (r : List (Nat × Nat))
    (hc1 : c ≤ 0x10FFFF) (hc2 : is_surrogate c = false)
    (hsorted : ∀ p ∈ r, p.1 ≤ p.2)
    (hdisj : List.Chain' (fun p q : Nat × Nat => p.2 < q.1) r) :
    bsearch_range_table c r = true ↔ ∃ p ∈ r, p.1 ≤ c ∧ c ≤ p.2 :=
  bsearch_pairs_iff c r ⟨hsorted, hdisj⟩

/-- Witness for C8 at the two ASCII letter ranges and c = 0x42. -/
theorem bsearch_range_table_iff_member_witness :
    (bsearch_range_table 0x42 [(0x41, 0x5A), (0x61, 0x7A)] = true ↔
      ∃ p ∈ [(0x41, 0x5A), (0x61, 0x7A)], p.1 ≤ 0x42 ∧ 0x42 ≤ p.2) :=
  bsearch_range_table_iff_member 0x42 [(0x41, 0x5A), (0x61, 0x7A)] (by decide) (by decide)
    (by decide)
    (by
      rw [List.chain'_cons]
      exact ⟨by decide, List.chain'_singleton _⟩)

/-- Claim C9 (code bug): the emitted literal-comparison chain for the
InCB Linker category is not equivalent to the table lookup over the same
interval list: the generator prints the low bound where the high bound was
intended, so on a multi-code-point interval such as (0x94D, 0x94F) the
chain rejects 0x94E while the binary-searched table accepts it. -/
theorem incb_linker_chain_mismatch :
    is_incb_linker_model [(0x94D, 0x94F)] 0x94E = false ∧
    bsearch_range_table 0x94E [(0x94D, 0x94F)] = true := by decide

/-- Claim C10 (amended): the coarse-index values are monotone
non-decreasing, bounded by the table length, equal to it exactly when no
entry reaches the bucket low bound, and each two-element classifier window
is well formed; the window is in bounds provided some entry reaches the
next bucket low bound (as the emitted tables do), which the counterexample
shows cannot be dropped. -/
theorem lookup_window_invariants {C : Type} (tbl : List (RangeEntry C)) (n stride : Nat) :
    (∀ i j : Nat, i ≤ j → j < n →
      (lookup_table tbl n stride).getD i 0 ≤ (lookup_table tbl n stride).getD j 0) ∧
    (∀ i : Nat, i < n →
      (lookup_table tbl n stride).getD i 0 ≤ tbl.length ∧
      ((lookup_table tbl n stride).getD i 0 = tbl.length ↔
        ∀ e ∈ tbl, e.hi < i * stride)) ∧
    (∀ i : Nat, i + 2 ≤ n →
      (lookup_table tbl n stride).getD i 0
        ≤ (lookup_table tbl n stride).getD (i + 1) 0 + 1 ∧
      ((∃ e ∈ tbl, (i + 1) * stride ≤ e.hi) →
        (lookup_table tbl n stride).getD (i + 1) 0 + 1 ≤ tbl.length)) := by
  refine ⟨?_, ?_, ?_⟩
  · intro i j hij hj
    exact (lookup_table_entry_first_ge tbl n stride i (by omega)).mono_le
      (lookup_table_entry_first_ge tbl n stride j hj)
      (Nat.mul_le_mul_right stride hij)
  · intro i hi
    have h := lookup_table_entry_first_ge tbl n stride i hi
    exact ⟨h.1, h.eq_length_iff⟩
  · intro i hi
    have h1 := lookup_table_entry_first_ge tbl n stride i (by omega)
    have h2 := lookup_table_entry_first_ge tbl n stride (i + 1) (by omega)
    constructor
    · have := h1.mono_le h2 (Nat.mul_le_mul_right stride (by omega))
      omega
    · intro hex
      have := h2.lt_length hex
      omega

/-- Witness for C10 (amended) at a one-entry table with four buckets. -/
theorem lookup_window_invariants_witness :
    (lookup_table ([⟨0, 5, "A"⟩] : List (RangeEntry String)) 4 2).getD 1 0 ≤ 1 ∧
    ((lookup_table ([⟨0, 5, "A"⟩] : List (RangeEntry String)) 4 2).getD 1 0 = 1 ↔
      ∀ e ∈ ([⟨0, 5, "A"⟩] : List (RangeEntry String)), e.hi < 1 * 2) :=
  (lookup_window_invariants ([⟨0, 5, "A"⟩] : List (RangeEntry String)) 4 2).2.1 1
    (by decide)

/-- Claim C10 counterexample: over the sorted disjoint one-entry table with
high bound 1, four buckets of stride 1, the classifier window at bucket 2
ends at lookup[3] + 1 = 2, beyond the table length 1, and the classifier
query hits the out-of-bounds slice (modelled as none). -/
theorem lookup_window_out_of_bounds_cex :
    (lookup_table ([⟨0, 1, "A"⟩] : List (RangeEntry String)) 4 1).getD 3 0 + 1 = 2 ∧
    ([⟨0, 1, "A"⟩] : List (RangeEntry String)).length = 1 ∧
    category 4 (lookup_table ([⟨0, 1, "A"⟩] : List (RangeEntry String)) 4 1)
      ([⟨0, 1, "A"⟩] : List (RangeEntry String)) 1
      ((lookup_table ([⟨0, 1, "A"⟩] : List (RangeEntry String)) 4 1).getLastD 0,
        ([⟨0, 1, "A"⟩] : List (RangeEntry String)).length) "Any" 2 = none := by
  decide

/-! ## Claim theorems: the break-property classifier -/

/-- Claim C1: for every code point c in the valid domain, the emitted
break-property classifier returns a triple (lo, hi, cat) with lo ≤ c ≤ hi;
if c lies inside some entry of the built table the triple is exactly that
entry; if c lies in no entry the category is the synthesized Any value.
The hypotheses are the build invariants of every emitted table: rows well
formed, sorted and disjoint, and the indexed region covered (each shipped
table has entries with high bound at least 0x1FF80, the last bucket low). -/
theorem classify_total_and_consistent {C : Type} (tbl : List (RangeEntry C)) (anyV : C)
    (hsorted : ∀ e ∈ tbl, e.lo ≤ e.hi)
    (hdisj : List.Chain' (fun a b : RangeEntry C => a.hi < b.lo) tbl)
    (hcov : ∃ e ∈ tbl, 0x1FF80 ≤ e.hi)
    (c : Nat) (hc : c ≤ 0x10FFFF) (hsur : is_surrogate c = false) :
    ∃ lo hi cat, break_category tbl anyV c = some (lo, hi, cat) ∧
      lo ≤ c ∧ c ≤ hi ∧
      (∀ j : Fin tbl.length, (tbl.get j).lo ≤ c → c ≤ (tbl.get j).hi →
        lo = (tbl.get j).lo ∧ hi = (tbl.get j).hi ∧ cat = (tbl.get j).cat) ∧
      ((∀ e ∈ tbl, ¬(e.lo ≤ c ∧ c ≤ e.hi)) → cat = anyV) := by
  have hsd : SDisj RangeEntry.lo RangeEntry.hi tbl := ⟨hsorted, hdisj⟩
  have hcov2 : ∃ e ∈ tbl, (0x400 - 1) * 0x80 ≤ e.hi := by
    obtain ⟨e, he, h⟩ := hcov
    exact ⟨e, he, by omega⟩
  by_cases hhit : ∃ j : Fin tbl.length, (tbl.get j).lo ≤ c ∧ c ≤ (tbl.get j).hi
  · obtain ⟨m, hm1, hm2⟩ := hhit
    have hcat := category_hit_master tbl 0x400 0x80 anyV c
      (break_window tbl c).1 (break_window tbl c).2 (by omega) (by omega)
      hsd hcov2 rfl m hm1 hm2
    refine ⟨(tbl.get m).lo, (tbl.get m).hi, (tbl.get m).cat, hcat, hm1, hm2, ?_, ?_⟩
    · intro j hj1 hj2
      have hjm : j = m := by
        by_contra hne
        have hv : (j : Nat) ≠ (m : Nat) := fun hv => hne (Fin.ext hv)
        rcases Nat.lt_or_ge (j : Nat) (m : Nat) with hlt | hge
        · have := hsd.pairwise_lt j m hlt
          omega
        · have := hsd.pairwise_lt m j (by omega)
          omega
      subst hjm
      exact ⟨rfl, rfl, rfl⟩
    · intro hmiss
      exact absurd ⟨hm1, hm2⟩ (hmiss _ (fin_get_mem tbl m))
  · have hmiss : ∀ e ∈ tbl, ¬(e.lo ≤ c ∧ c ≤ e.hi) := by
      intro e he hcon
      obtain ⟨k, hk⟩ := List.mem_iff_get.mp he
      exact hhit ⟨k, by rw [hk]; exact hcon.1, by rw [hk]; exact hcon.2⟩
    obtain ⟨K, hKa, hKb, hKlen, hW2, hKlt, hKgt, hKiff, hKeq⟩ :=
      category_gap_master tbl 0x400 0x80 anyV c
        (break_window tbl c).1 (break_window tbl c).2 (by omega) (by omega)
        hsd hcov2 rfl hmiss
    have hdiv := div_bounds c 0x80 (by omega)
    refine ⟨_, _, anyV, hKeq, ?_, ?_, ?_, fun _ => rfl⟩
    · split_ifs with h
      · have hK1 : K - 1 < tbl.length := by omega
        have hbelow := hKlt ⟨K - 1, hK1⟩ (show K - 1 < K by omega)
        rw [List.getD_eq_getElem _ _ hK1]
        rw [List.get_eq_getElem] at hbelow
        simp only [Fin.val_mk] at hbelow
        omega
      · exact hdiv.1
    · split_ifs with h
      · have hKl : K < tbl.length := hKiff.mp h
        have habove := hKgt ⟨K, hKl⟩ (le_refl K)
        rw [List.getD_eq_getElem _ _ hKl]
        rw [List.get_eq_getElem] at habove
        simp only [Fin.val_mk] at habove
        omega
      · omega
    · intro j hj1 hj2
      exact absurd ⟨hj1, hj2⟩ (hmiss _ (fin_get_mem tbl j))

/-- Witness for C1 at a two-entry table and the hit c = 0x50. -/
theorem classify_total_and_consistent_witness :
    ∃ lo hi cat,
      break_category ([⟨0x41, 0x5A, "Alpha"⟩, ⟨0xE0000, 0xE01EF, "Ext"⟩]
        : List (RangeEntry String)) "Any" 0x50 = some (lo, hi, cat) ∧
      lo ≤ 0x50 ∧ 0x50 ≤ hi ∧
      (∀ j : Fin ([⟨0x41, 0x5A, "Alpha"⟩, ⟨0xE0000, 0xE01EF, "Ext"⟩]
          : List (RangeEntry String)).length,
        (([⟨0x41, 0x5A, "Alpha"⟩, ⟨0xE0000, 0xE01EF, "Ext"⟩]
          : List (RangeEntry String)).get j).lo ≤ 0x50 →
        0x50 ≤ (([⟨0x41, 0x5A, "Alpha"⟩, ⟨0xE0000, 0xE01EF, "Ext"⟩]
          : List (RangeEntry String)).get j).hi →
        lo = (([⟨0x41, 0x5A, "Alpha"⟩, ⟨0xE0000, 0xE01EF, "Ext"⟩]
          : List (RangeEntry String)).get j).lo ∧
        hi = (([⟨0x41, 0x5A, "Alpha"⟩, ⟨0xE0000, 0xE01EF, "Ext"⟩]
          : List (RangeEntry String)).get j).hi ∧
        cat = (([⟨0x41, 0x5A, "Alpha"⟩, ⟨0xE0000, 0xE01EF, "Ext"⟩]
          : List (RangeEntry String)).get j).cat) ∧
      ((∀ e ∈ ([⟨0x41, 0x5A, "Alpha"⟩, ⟨0xE0000, 0xE01EF, "Ext"⟩]
          : List (RangeEntry String)), ¬(e.lo ≤ 0x50 ∧ 0x50 ≤ e.hi)) → cat = "Any") :=
  classify_total_and_consistent
    ([⟨0x41, 0x5A, "Alpha"⟩, ⟨0xE0000, 0xE01EF, "Ext"⟩] : List (RangeEntry String))
    "Any" (by decide)
    (by
      rw [List.chain'_cons]
      exact ⟨by decide, List.chain'_singleton _⟩)
    (by decide) 0x50 (by decide) (by decide)

/-- Claim C5: on a classifier miss the synthesized lower bound is the
previous window entry high bound plus one when a previous window entry
exists, else the bucket low i * 0x80; the upper bound is the next window
entry low bound minus one when a next window entry exists, else the bucket
high i * 0x80 + 0x7F; the category is the Any value; and the synthesized
interval contains c and meets no table entry, hence lies inside the true
maximal unassigned gap around c. -/
theorem gap_bounds_synthesis {C : Type} (tbl : List (RangeEntry C)) (anyV : C)
    (hsorted : ∀ e ∈ tbl, e.lo ≤ e.hi)
    (hdisj : List.Chain' (fun a b : RangeEntry C => a.hi < b.lo) tbl)
    (hcov : ∃ e ∈ tbl, 0x1FF80 ≤ e.hi)
    (c : Nat) (hc : c ≤ 0x10FFFF) (hsur : is_surrogate c = false)
    (hmiss : ∀ e ∈ tbl, ¬(e.lo ≤ c ∧ c ≤ e.hi)) :
    ∃ K lo hi,
      (break_window tbl c).1 ≤ K ∧ K ≤ (break_window tbl c).2 ∧
      break_category tbl anyV c = some (lo, hi, anyV) ∧
      lo = (if (break_window tbl c).1 < K
        then (tbl.getD (K - 1) ⟨0, 0, anyV⟩).hi + 1 else c / 0x80 * 0x80) ∧
      hi = (if K < (break_window tbl c).2
        then (tbl.getD K ⟨0, 0, anyV⟩).lo - 1 else c / 0x80 * 0x80 + 0x80 - 1) ∧
      lo ≤ c ∧ c ≤ hi ∧
      (∀ e ∈ tbl, e.hi < lo ∨ hi < e.lo) := by
  have hsd : SDisj RangeEntry.lo RangeEntry.hi tbl := ⟨hsorted, hdisj⟩
  have hcov2 : ∃ e ∈ tbl, (0x400 - 1) * 0x80 ≤ e.hi := by
    obtain ⟨e, he, h⟩ := hcov
    exact ⟨e, he, by omega⟩
  obtain ⟨K, hKa, hKb, hKlen, hW2, hKlt, hKgt, hKiff, hKeq⟩ :=
    category_gap_master tbl 0x400 0x80 anyV c
      (break_window tbl c).1 (break_window tbl c).2 (by omega) (by omega)
      hsd hcov2 rfl hmiss
  have hdiv := div_bounds c 0x80 (by omega)
  refine ⟨K, _, _, hKa, hKb, hKeq, rfl, rfl, ?_, ?_, ?_⟩
  · split_ifs with h
    · have hK1 : K - 1 < tbl.length := by omega
      have hbelow := hKlt ⟨K - 1, hK1⟩ (show K - 1 < K by omega)
      rw [List.getD_eq_getElem _ _ hK1]
      rw [List.get_eq_getElem] at hbelow
      simp only [Fin.val_mk] at hbelow
      omega
    · exact hdiv.1
  · split_ifs with h
    · have hKl : K < tbl.length := hKiff.mp h
      have habove := hKgt ⟨K, hKl⟩ (le_refl K)
      rw [List.getD_eq_getElem _ _ hKl]
      rw [List.get_eq_getElem] at habove
      simp only [Fin.val_mk] at habove
      omega
    · omega
  · intro e he
    obtain ⟨k, hk⟩ := List.mem_iff_get.mp he
    rcases Nat.lt_or_ge (k : Nat) K with hkK | hkK
    · left
      split_ifs with h
      · have hK1 : K - 1 < tbl.length := by omega
        rcases Nat.lt_or_ge (k : Nat) (K - 1) with hk2 | hk2
        · have hp := hsd.pairwise_lt k ⟨K - 1, hK1⟩ hk2
          have hlh := hsd.1 _ (fin_get_mem tbl ⟨K - 1, hK1⟩)
          rw [hk] at hp
          rw [List.getD_eq_getElem _ _ hK1]
          rw [List.get_eq_getElem] at hp hlh
          simp only [Fin.val_mk] at hp hlh
          omega
        · have hkeq2 : e = tbl.get ⟨K - 1, hK1⟩ := by
            rw [← hk]
            exact congrArg tbl.get (Fin.ext (show (k : Nat) = K - 1 by omega))
          rw [hkeq2, List.getD_eq_getElem _ _ hK1, List.get_eq_getElem]
          simp only [Fin.val_mk]
          omega
      · have hb := hW2 k (by omega)
        rw [hk] at hb
        omega
    · right
      split_ifs with h
      · have hKl : K < tbl.length := hKiff.mp h
        have hgK := hKgt ⟨K, hKl⟩ (le_refl K)
        rw [List.get_eq_getElem] at hgK
        simp only [Fin.val_mk] at hgK
        rcases Nat.lt_or_ge K (k : Nat) with hk2 | hk2
        · have hp := hsd.pairwise_lt ⟨K, hKl⟩ k hk2
          have hlh := hsd.1 _ (fin_get_mem tbl ⟨K, hKl⟩)
          rw [hk] at hp
          rw [List.getD_eq_getElem _ _ hKl]
          rw [List.get_eq_getElem] at hp hlh
          simp only [Fin.val_mk] at hp hlh
          omega
        · have hkeq2 : e = tbl.get ⟨K, hKl⟩ := by
            rw [← hk]
            exact congrArg tbl.get (Fin.ext (show (k : Nat) = K by omega))
          rw [hkeq2, List.getD_eq_getElem _ _ hKl, List.get_eq_getElem]
          simp only [Fin.val_mk]
          omega
      · exfalso
        have hnKl : ¬ K < tbl.length := fun hKl => h (hKiff.mpr hKl)
        have := k.isLt
        omega

/-- Witness for C5 at a two-entry table and the miss c = 0x100. -/
theorem gap_bounds_synthesis_witness :
    ∃ K lo hi,
      (break_window ([⟨0x41, 0x5A, "Alpha"⟩, ⟨0xE0000, 0xE01EF, "Ext"⟩]
        : List (RangeEntry String)) 0x100).1 ≤ K ∧
      K ≤ (break_window ([⟨0x41, 0x5A, "Alpha"⟩, ⟨0xE0000, 0xE01EF, "Ext"⟩]
        : List (RangeEntry String)) 0x100).2 ∧
      break_category ([⟨0x41, 0x5A, "Alpha"⟩, ⟨0xE0000, 0xE01EF, "Ext"⟩]
        : List (RangeEntry String)) "Any" 0x100 = some (lo, hi, "Any") ∧
      lo = (if (break_window ([⟨0x41, 0x5A, "Alpha"⟩, ⟨0xE0000, 0xE01EF, "Ext"⟩]
          : List (RangeEntry String)) 0x100).1 < K
        then (([⟨0x41, 0x5A, "Alpha"⟩, ⟨0xE0000, 0xE01EF, "Ext"⟩]
          : List (RangeEntry String)).getD (K - 1) ⟨0, 0, "Any"⟩).hi + 1
        else 0x100 / 0x80 * 0x80) ∧
      hi = (if K < (break_window ([⟨0x41, 0x5A, "Alpha"⟩, ⟨0xE0000, 0xE01EF, "Ext"⟩]
          : List (RangeEntry String)) 0x100).2
        then (([⟨0x41, 0x5A, "Alpha"⟩, ⟨0xE0000, 0xE01EF, "Ext"⟩]
          : List (RangeEntry String)).getD K ⟨0, 0, "Any"⟩).lo - 1
        else 0x100 / 0x80 * 0x80 + 0x80 - 1) ∧
      lo ≤ 0x100 ∧ 0x100 ≤ hi ∧
      (∀ e ∈ ([⟨0x41, 0x5A, "Alpha"⟩, ⟨0xE0000, 0xE01EF, "Ext"⟩]
        : List (RangeEntry String)), e.hi < lo ∨ hi < e.lo) :=
  gap_bounds_synthesis
    ([⟨0x41, 0x5A, "Alpha"⟩, ⟨0xE0000, 0xE01EF, "Ext"⟩] : List (RangeEntry String))
    "Any" (by decide)
    (by
      rw [List.chain'_cons]
      exact ⟨by decide, List.chain'_singleton _⟩)
    (by decide) 0x100 (by decide) (by decide) (by decide)

/-- Claim C3 counterexample: at the sorted disjoint table below, covering
the indexed region, the windowed classifier and the unindexed binary search
over the whole table disagree at the gap code point c = 0x100: the window
starts past the first entry, so the synthesized lower bound is the bucket
default 0x100 instead of the true previous high plus one, 0x11. -/
theorem coarse_index_no_refinement_cex :
    break_category ([⟨0, 0x10, "A"⟩, ⟨0x200, 0x210, "B"⟩, ⟨0xE0000, 0xE01EF, "C"⟩]
      : List (RangeEntry String)) "Any" 0x100
      ≠ some (category_unindexed
        ([⟨0, 0x10, "A"⟩, ⟨0x200, 0x210, "B"⟩, ⟨0xE0000, 0xE01EF, "C"⟩]
          : List (RangeEntry String)) 0x80 "Any" 0x100) := by
  decide

/-- Claim C3 (amended): narrowing by the coarse index never changes the
result on hits, and never changes the category or the upper bound; on a
gap the windowed lower bound can only be larger than the unindexed one
(the windowed gap interval is contained in the unindexed gap interval),
with equality whenever some entry contains c. -/
theorem coarse_index_refines_up_to_gap_lower {C : Type}
    (tbl : List (RangeEntry C)) (anyV : C)
    (hsorted : ∀ e ∈ tbl, e.lo ≤ e.hi)
    (hdisj : List.Chain' (fun a b : RangeEntry C => a.hi < b.lo) tbl)
    (hcov : ∃ e ∈ tbl, 0x1FF80 ≤ e.hi)
    (c : Nat) (hc : c ≤ 0x10FFFF) (hsur : is_surrogate c = false) :
    ∃ lo hi cat lo2,
      break_category tbl anyV c = some (lo, hi, cat) ∧
      category_unindexed tbl 0x80 anyV c = (lo2, hi, cat) ∧
      lo2 ≤ lo ∧
      ((∃ e ∈ tbl, e.lo ≤ c ∧ c ≤ e.hi) → lo2 = lo) := by
  have hsd : SDisj RangeEntry.lo RangeEntry.hi tbl := ⟨hsorted, hdisj⟩
  have hcov2 : ∃ e ∈ tbl, (0x400 - 1) * 0x80 ≤ e.hi := by
    obtain ⟨e, he, h⟩ := hcov
    exact ⟨e, he, by omega⟩
  by_cases hhit : ∃ j : Fin tbl.length, (tbl.get j).lo ≤ c ∧ c ≤ (tbl.get j).hi
  · obtain ⟨m, hm1, hm2⟩ := hhit
    have hcat := category_hit_master tbl 0x400 0x80 anyV c
      (break_window tbl c).1 (break_window tbl c).2 (by omega) (by omega)
      hsd hcov2 rfl m hm1 hm2
    have huni : category_unindexed tbl 0x80 anyV c
        = ((tbl.get m).lo, (tbl.get m).hi, (tbl.get m).cat) :=
      bsearch_rvt_found c tbl (c / 0x80 * 0x80) (c / 0x80 * 0x80 + 0x80 - 1) anyV
        hsd m hm1 hm2
    exact ⟨_, _, _, _, hcat, huni, le_refl _, fun _ => rfl⟩
  · have hmiss : ∀ e ∈ tbl, ¬(e.lo ≤ c ∧ c ≤ e.hi) := by
      intro e he hcon
      obtain ⟨k, hk⟩ := List.mem_iff_get.mp he
      exact hhit ⟨k, by rw [hk]; exact hcon.1, by rw [hk]; exact hcon.2⟩
    obtain ⟨K, hKa, hKb, hKlen, hW2, hKlt, hKgt, hKiff, hKeq⟩ :=
      category_gap_master tbl 0x400 0x80 anyV c
        (break_window tbl c).1 (break_window tbl c).2 (by omega) (by omega)
        hsd hcov2 rfl hmiss
    obtain ⟨i, hile, hlt2, hgt2, hueq⟩ := bsearch_rvt_gap c tbl
      (c / 0x80 * 0x80) (c / 0x80 * 0x80 + 0x80 - 1) anyV hsd hmiss
    have hiK : i = K := by
      by_contra hne
      rcases Nat.lt_or_ge i K with hlt3 | hge3
      · have hil : i < tbl.length := by omega
        have h1 := hKlt ⟨i, hil⟩ hlt3
        have h2 := hgt2 ⟨i, hil⟩ (le_refl i)
        have h3 := hsd.1 _ (fin_get_mem tbl ⟨i, hil⟩)
        omega
      · have hKl : K < tbl.length := by omega
        have h1 := hlt2 ⟨K, hKl⟩ (show K < i by omega)
        have h2 := hKgt ⟨K, hKl⟩ (le_refl K)
        have h3 := hsd.1 _ (fin_get_mem tbl ⟨K, hKl⟩)
        omega
    subst hiK
    have hhi : (if i < tbl.length then (tbl.getD i ⟨0, 0, anyV⟩).lo - 1
        else c / 0x80 * 0x80 + 0x80 - 1)
        = (if i < (break_window tbl c).2 then (tbl.getD i ⟨0, 0, anyV⟩).lo - 1
        else c / 0x80 * 0x80 + 0x80 - 1) :=
      if_congr hKiff.symm rfl rfl
    refine ⟨_, _, anyV,
      (if 0 < i then (tbl.getD (i - 1) ⟨0, 0, anyV⟩).hi + 1 else c / 0x80 * 0x80),
      hKeq, ?_, ?_, ?_⟩
    · exact hueq.trans (Prod.ext rfl (Prod.ext hhi rfl))
    · by_cases h0 : (break_window tbl c).1 < i
      · rw [if_pos h0, if_pos (show 0 < i by omega)]
      · rw [if_neg h0]
        by_cases h1 : 0 < i
        · rw [if_pos h1]
          have hK1 : i - 1 < tbl.length := by omega
          have hb := hW2 ⟨i - 1, hK1⟩ (show i - 1 < (break_window tbl c).1 by omega)
          rw [List.getD_eq_getElem _ _ hK1]
          rw [List.get_eq_getElem] at hb
          simp only [Fin.val_mk] at hb
          omega
        · rw [if_neg h1]
    · rintro ⟨e, he, hc1, hc2⟩
      exact absurd ⟨hc1, hc2⟩ (hmiss e he)

/-- Witness for C3 (amended) at the counterexample table and c = 0x100. -/
theorem coarse_index_refines_up_to_gap_lower_witness :
    ∃ lo hi cat lo2,
      break_category ([⟨0, 0x10, "A"⟩, ⟨0x200, 0x210, "B"⟩, ⟨0xE0000, 0xE01EF, "C"⟩]
        : List (RangeEntry String)) "Any" 0x100 = some (lo, hi, cat) ∧
      category_unindexed ([⟨0, 0x10, "A"⟩, ⟨0x200, 0x210, "B"⟩, ⟨0xE0000, 0xE01EF, "C"⟩]
        : List (RangeEntry String)) 0x80 "Any" 0x100 = (lo2, hi, cat) ∧
      lo2 ≤ lo ∧
      ((∃ e ∈ ([⟨0, 0x10, "A"⟩, ⟨0x200, 0x210, "B"⟩, ⟨0xE0000, 0xE01EF, "C"⟩]
        : List (RangeEntry String)), e.lo ≤ 0x100 ∧ 0x100 ≤ e.hi) → lo2 = lo) :=
  coarse_index_refines_up_to_gap_lower
    ([⟨0, 0x10, "A"⟩, ⟨0x200, 0x210, "B"⟩, ⟨0xE0000, 0xE01EF, "C"⟩]
      : List (RangeEntry String))
    "Any" (by decide)
    (by
      rw [List.chain'_cons, List.chain'_cons]
      exact ⟨by decide, by decide, List.chain'_singleton _⟩)
    (by decide) 0x100 (by decide) (by decide)
